import Mathlib

/-!
Verification of the outline-extraction pipeline in `process_pdfs.py`.

The program reads positioned text lines from a PDF (text, font size,
zero-based page number, bounding box), merges vertically adjacent and
typographically similar lines (`merge_nearby_lines`), extracts a title from
the largest-font lines on the first page, classifies heading candidates by
relative font size, and emits a sorted outline
(`extract_document_structure`).

Numeric quantities (font sizes, bounding-box coordinates) are modelled as
rationals; page numbers as naturals.  The upstream PDF engine is modelled
as an `Except String (List Line)` value: either an error message from a
failed open, or the list of raw lines produced by `get_all_text_lines`.
-/

namespace ProcessPdfs

/-- A bounding box `(x0, y0, x1, y1)`; `y0` is the top edge, `y1` the
bottom edge.  Equality is four-tuple value equality, as in the source. -/
structure BBox where
  x0 : ℚ
  y0 : ℚ
  x1 : ℚ
  y1 : ℚ
deriving DecidableEq

/-- One text line as built by `get_all_text_lines` (and also the shape of a
merged line): text, dominant font size, zero-based page number, bbox. -/
structure Line where
  text : String
  font_size : ℚ
  page_num : ℕ
  bbox : BBox
deriving DecidableEq

/-- The merge condition of `merge_nearby_lines` (source lines 21-23):
same page, `|next.bbox[1] - cur.bbox[3]| < threshold`, and
`|next.font_size - cur.font_size| < 1`. -/
def mergeOK (threshold : ℚ) (cur next : Line) : Bool :=
  decide (next.page_num = cur.page_num) &&
  decide (|next.bbox.y0 - cur.bbox.y1| < threshold) &&
  decide (|next.font_size - cur.font_size| < 1)

/-- The coordinate-wise union of two bounding boxes (source lines 27-32). -/
def bboxUnion (a b : BBox) : BBox :=
  ⟨min a.x0 b.x0, min a.y0 b.y0, max a.x1 b.x1, max a.y1 b.y1⟩

/-- One merge step (source lines 26-32): concatenate the texts with a
space, take the union bbox; `font_size` and `page_num` stay those of the
accumulator. -/
def merge1 (cur next : Line) : Line :=
  { cur with text := cur.text ++ " " ++ next.text, bbox := bboxUnion cur.bbox next.bbox }

/-- The loop of `merge_nearby_lines` (source lines 19-37): `cur` is the
`current_line` accumulator, the returned list is `merged_lines` with the
final flush appended. -/
def mergeAux (threshold : ℚ) (cur : Line) : List Line → List Line
  | [] => [cur]
  | next :: rest =>
    if mergeOK threshold cur next then
      mergeAux threshold (merge1 cur next) rest
    else
      cur :: mergeAux threshold next rest

/-- `merge_nearby_lines(lines, threshold=5)` (source lines 8-38). -/
def merge_nearby_lines (lines : List Line) (threshold : ℚ := 5) : List Line :=
  match lines with
  | [] => []
  | l :: ls => mergeAux threshold l ls

/-- Modelled from the spec (§4.1), for comparison with
`merge_nearby_lines`: one left-to-right fold whose state is the output so
far plus one accumulator line, merging the next line into the accumulator
iff same page, vertical gap below the threshold, and font-size difference
below 1, flushing otherwise, with a final flush after the fold. -/
def mergeStepSpec (threshold : ℚ) (st : List Line × Line) (next : Line) : List Line × Line :=
  if next.page_num = st.2.page_num ∧ |next.bbox.y0 - st.2.bbox.y1| < threshold ∧
      |next.font_size - st.2.font_size| < 1 then
    (st.1, { st.2 with text := st.2.text ++ " " ++ next.text,
                       bbox := ⟨min st.2.bbox.x0 next.bbox.x0, min st.2.bbox.y0 next.bbox.y0,
                                max st.2.bbox.x1 next.bbox.x1, max st.2.bbox.y1 next.bbox.y1⟩ })
  else
    (st.1 ++ [st.2], next)

/-- Modelled from the spec (§4.1): the whole merge as a fold with a final
flush; the first element seeds the accumulator. -/
def mergeSpec (lines : List Line) (threshold : ℚ) : List Line :=
  match lines with
  | [] => []
  | l :: ls =>
    let st := ls.foldl (mergeStepSpec threshold) ([], l)
    st.1 ++ [st.2]

/-- A placeholder line, used only to totalise `collapseRun` on the empty
list (which never occurs: every run is nonempty). -/
def dummyLine : Line := ⟨"", 0, 0, ⟨0, 0, 0, 0⟩⟩

/-- Collapse a run of constituent lines into the single line that
`merge_nearby_lines` builds from them, by folding `merge1` from the first
constituent. -/
def collapseRun : List Line → Line
  | [] => dummyLine
  | x :: xs => xs.foldl merge1 x

/-- Provenance instrumentation of the merge loop: instead of the collapsed
accumulator it carries the list `x :: xs` of constituents of the current
accumulator, and returns the list of runs of constituents. -/
def runsAux (threshold : ℚ) (x : Line) (xs : List Line) : List Line → List (List Line)
  | [] => [x :: xs]
  | next :: rest =>
    if mergeOK threshold (collapseRun (x :: xs)) next then
      runsAux threshold x (xs ++ [next]) rest
    else
      (x :: xs) :: runsAux threshold next [] rest

/-- The partition of the input of `merge_nearby_lines` into the contiguous
runs of constituents of each output line. -/
def runs (threshold : ℚ) : List Line → List (List Line)
  | [] => []
  | l :: ls => runsAux threshold l [] ls

/-- Python's `" ".join`. -/
def joinSpace : List String → String
  | [] => ""
  | [s] => s
  | s :: t :: rest => s ++ " " ++ joinSpace (t :: rest)

/-- Word scan: counts the maximal whitespace-free runs of a character
list; the flag records whether the scan is inside a run. -/
def wordsAux : List Char → Bool → ℕ
  | [], _ => 0
  | c :: cs, inWord =>
    if c.isWhitespace then wordsAux cs false
    else (if inWord then 0 else 1) + wordsAux cs true

/-- Python's `len(text.split())`: the number of maximal nonempty
whitespace-separated words. -/
def wordCount (s : String) : ℕ := wordsAux s.data false

/-- The distinct values of a list, each at its first occurrence, in order;
`seen` accumulates the values already emitted. -/
def firstOccsAux (seen : List ℚ) : List ℚ → List ℚ
  | [] => []
  | x :: xs => if x ∈ seen then firstOccsAux seen xs else x :: firstOccsAux (x :: seen) xs

/-- The distinct values of a list in first-occurrence order (the key order
of a Python `Counter` built by insertion). -/
def firstOccs (l : List ℚ) : List ℚ := firstOccsAux [] l

/-- Number of occurrences of `v` in `l`. -/
def countQ (l : List ℚ) (v : ℚ) : ℕ := l.countP (fun w => decide (w = v))

/-- Scan a list keeping the element with the largest `f`-value, replacing
the current best only on a strict increase (so ties keep the earlier
element). -/
def pickMost (f : ℚ → ℕ) (best : ℚ) : List ℚ → ℚ
  | [] => best
  | w :: ws => pickMost f (if f best < f w then w else best) ws

/-- `Counter(l).most_common(1)[0][0] if l else 12` (source line 99): the
most frequent value of `l`, ties broken by first encounter, default 12. -/
def mostCommon (l : List ℚ) : ℚ :=
  match firstOccs l with
  | [] => 12
  | v :: vs => pickMost (countQ l) v vs

/-- Index of the first occurrence of `sz` in a list of font sizes. -/
def idxOfQ (sz : ℚ) : List ℚ → Option ℕ
  | [] => none
  | v :: vs => if v = sz then some 0 else (idxOfQ sz vs).map (fun i => i + 1)

/-- `first_page_lines` (source line 85): the merged lines on page 0. -/
def first_page_lines (lines : List Line) : List Line :=
  lines.filter (fun l => decide (l.page_num = 0))

/-- `max_font_size` (source line 90): Python `max` over the font sizes,
defaulting to 0 on the empty list (never used: the source only evaluates
it on a nonempty list). -/
def max_font_size (fp : List Line) : ℚ :=
  match fp with
  | [] => 0
  | x :: xs => (xs.map (fun l => l.font_size)).foldl max x.font_size

/-- `title_lines` (source line 91): first-page lines whose font size equals
the first-page maximum exactly. -/
def title_lines (lines : List Line) : List Line :=
  (first_page_lines lines).filter
    (fun l => decide (l.font_size = max_font_size (first_page_lines lines)))

/-- `(extracted_title, title_bboxes)` (source lines 85-95). -/
def titleInfo (lines : List Line) : String × List BBox :=
  if first_page_lines lines = [] then ("", [])
  else (joinSpace ((title_lines lines).map (fun l => l.text)),
        (title_lines lines).map (fun l => l.bbox))

/-- `baseline_size` (source lines 98-99): the most frequent font size over
all merged lines of the document, default 12. -/
def baseline_size (lines : List Line) : ℚ :=
  mostCommon (lines.map (fun l => l.font_size))

/-- The candidate loop (source lines 101-108): skip lines whose bbox is a
reserved title bbox, keep lines with font size above the baseline and
fewer than 20 words. -/
def candidatesLoop (bbs : List BBox) (baseline : ℚ) (lines : List Line) : List Line :=
  lines.foldl
    (fun acc l =>
      if l.bbox ∈ bbs then acc
      else if baseline < l.font_size ∧ wordCount l.text < 20 then acc ++ [l]
      else acc)
    []

/-- `candidates` (source lines 101-108) for the whole document. -/
def candidates (lines : List Line) : List Line :=
  candidatesLoop (titleInfo lines).2 (baseline_size lines) lines

/-- `heading_font_sizes` (source line 114): the distinct candidate font
sizes sorted in descending order. -/
def heading_font_sizes (cands : List Line) : List ℚ :=
  (firstOccs (cands.map (fun c => c.font_size))).mergeSort (fun a b => decide (b ≤ a))

/-- `size_to_level` (source line 115): position of a font size among the
top (at most) four distinct sizes, rendered as "H1".."H4". -/
def size_to_level (tops : List ℚ) (sz : ℚ) : Option String :=
  (idxOfQ sz tops).map (fun i => "H" ++ toString (i + 1))

/-- A heading record before the final projection (source lines 120-125):
level, text, 1-based page, bbox. -/
structure Heading where
  level : String
  text : String
  page : ℕ
  bbox : BBox
deriving DecidableEq

/-- One record of the emitted outline (source line 128). -/
structure OutlineEntry where
  level : String
  text : String
  page : ℕ
deriving DecidableEq

/-- Final result shape of `extract_document_structure`. -/
structure DocumentStructure where
  title : String
  outline : List OutlineEntry
deriving DecidableEq

/-- The headings loop (source lines 117-125): candidates whose font size
is in the level map become heading records with 1-based page. -/
def headingsOf (tops : List ℚ) (cands : List Line) : List Heading :=
  cands.foldl
    (fun acc c =>
      match size_to_level tops c.font_size with
      | some lvl => acc ++ [⟨lvl, c.text, c.page_num + 1, c.bbox⟩]
      | none => acc)
    []

/-- The sort comparator of source line 127: ascending lexicographic order
on the key `(page, bbox[1])`, with the already 1-based page. -/
def sortLE (a b : Heading) : Bool :=
  decide (a.page < b.page ∨ (a.page = b.page ∧ a.bbox.y0 ≤ b.bbox.y0))

/-- Modelled from the spec (§4.2 Step 6), for comparison with `sortLE`:
the same lexicographic comparator but on the pre-transform 0-based page
index (the 1-based `page` minus one). -/
def sortLEZeroBased (a b : Heading) : Bool :=
  decide (a.page - 1 < b.page - 1 ∨ (a.page - 1 = b.page - 1 ∧ a.bbox.y0 ≤ b.bbox.y0))

/-- The heading records of the document, in candidate order (source lines
113-125). -/
def docHeadings (lines : List Line) : List Heading :=
  headingsOf ((heading_font_sizes (candidates lines)).take 4) (candidates lines)

/-- The heading records after the stable sort of source line 127. -/
def docSorted (lines : List Line) : List Heading :=
  (docHeadings lines).mergeSort sortLE

/-- `outline` (source lines 111-128): empty when there is no candidate,
otherwise the sorted headings projected to (level, text, page). -/
def outlineOf (lines : List Line) : List OutlineEntry :=
  if candidates lines = [] then []
  else (docSorted lines).map (fun h => ⟨h.level, h.text, h.page⟩)

/-- Source lines 83-131: title and outline from the merged lines (reached
only when the merged lines are nonempty). -/
def structureOfLines (lines : List Line) : DocumentStructure :=
  ⟨(titleInfo lines).1, outlineOf lines⟩

/-- `extract_document_structure` (source lines 67-131).  The upstream PDF
engine (`fitz.open` plus `get_all_text_lines`) is modelled by the
`openResult` argument: an error message when the open fails, or the list
of raw lines it yields. -/
def extract_document_structure (openResult : Except String (List Line)) : DocumentStructure :=
  match openResult with
  | .error e => ⟨"Error: " ++ e, []⟩
  | .ok raw =>
    let lines := merge_nearby_lines raw 5
    if lines = [] then ⟨"", []⟩ else structureOfLines lines

/-! ### Lemmas about the merge fold -/

theorem mergeOK_iff (t : ℚ) (cur next : Line) :
    mergeOK t cur next = true ↔
      next.page_num = cur.page_num ∧ |next.bbox.y0 - cur.bbox.y1| < t ∧
        |next.font_size - cur.font_size| < 1 := by
  simp [mergeOK, and_assoc]

theorem merge1_page_num (c n : Line) : (merge1 c n).page_num = c.page_num := rfl

theorem merge1_font_size (c n : Line) : (merge1 c n).font_size = c.font_size := rfl

theorem merge1_text (c n : Line) : (merge1 c n).text = c.text ++ " " ++ n.text := rfl

theorem foldl_merge1_page_num (xs : List Line) (x : Line) :
    (xs.foldl merge1 x).page_num = x.page_num := by
  induction xs generalizing x with
  | nil => rfl
  | cons y ys ih => rw [List.foldl_cons, ih (merge1 x y), merge1_page_num]

theorem foldl_merge1_font_size (xs : List Line) (x : Line) :
    (xs.foldl merge1 x).font_size = x.font_size := by
  induction xs generalizing x with
  | nil => rfl
  | cons y ys ih => rw [List.foldl_cons, ih (merge1 x y), merge1_font_size]

theorem collapseRun_cons (x : Line) (xs : List Line) :
    collapseRun (x :: xs) = xs.foldl merge1 x := rfl

theorem collapseRun_snoc (x : Line) (xs : List Line) (y : Line) :
    collapseRun (x :: (xs ++ [y])) = merge1 (collapseRun (x :: xs)) y := by
  simp [collapseRun, List.foldl_append]

theorem mergeAux_eq_runsAux (t : ℚ) : ∀ (rest : List Line) (x : Line) (xs : List Line),
    mergeAux t (collapseRun (x :: xs)) rest = (runsAux t x xs rest).map collapseRun
  | [], x, xs => rfl
  | next :: rest, x, xs => by
    simp only [mergeAux, runsAux]
    by_cases h : mergeOK t (collapseRun (x :: xs)) next
    · rw [if_pos h, if_pos h, ← collapseRun_snoc, mergeAux_eq_runsAux t rest x (xs ++ [next])]
    · rw [if_neg h, if_neg h, List.map_cons]
      exact congrArg (collapseRun (x :: xs) :: ·) (mergeAux_eq_runsAux t rest next [])

theorem merge_eq_runs_map (t : ℚ) (l : List Line) :
    merge_nearby_lines l t = (runs t l).map collapseRun := by
  cases l with
  | nil => rfl
  | cons x ls => exact mergeAux_eq_runsAux t ls x []

theorem runsAux_join (t : ℚ) : ∀ (rest : List Line) (x : Line) (xs : List Line),
    (runsAux t x xs rest).flatten = x :: (xs ++ rest)
  | [], x, xs => by simp [runsAux]
  | next :: rest, x, xs => by
    simp only [runsAux]
    by_cases h : mergeOK t (collapseRun (x :: xs)) next
    · rw [if_pos h, runsAux_join t rest x (xs ++ [next])]
      simp
    · rw [if_neg h, List.flatten_cons, runsAux_join t rest next []]
      simp

theorem runs_join (t : ℚ) (l : List Line) : (runs t l).flatten = l := by
  cases l with
  | nil => rfl
  | cons x ls => rw [runs, runsAux_join t ls x []]; rfl

theorem ne_nil_of_mem_runsAux (t : ℚ) : ∀ (rest : List Line) (x : Line) (xs : List Line),
    ∀ r ∈ runsAux t x xs rest, r ≠ []
  | [], x, xs => by
    intro r hr
    simp only [runsAux, List.mem_singleton] at hr
    subst hr; simp
  | next :: rest, x, xs => by
    intro r hr
    simp only [runsAux] at hr
    by_cases h : mergeOK t (collapseRun (x :: xs)) next
    · rw [if_pos h] at hr
      exact ne_nil_of_mem_runsAux t rest x (xs ++ [next]) r hr
    · rw [if_neg h] at hr
      rcases List.mem_cons.mp hr with rfl | hr
      · simp
      · exact ne_nil_of_mem_runsAux t rest next [] r hr

theorem runsAux_ne_nil (t : ℚ) : ∀ (rest : List Line) (x : Line) (xs : List Line),
    runsAux t x xs rest ≠ []
  | [], x, xs => by simp [runsAux]
  | next :: rest, x, xs => by
    simp only [runsAux]
    by_cases h : mergeOK t (collapseRun (x :: xs)) next
    · rw [if_pos h]
      exact runsAux_ne_nil t rest x (xs ++ [next])
    · rw [if_neg h]
      simp

theorem runsAux_inv (t : ℚ) : ∀ (rest : List Line) (x : Line) (xs : List Line),
    (∀ y ∈ xs, y.page_num = x.page_num ∧ |y.font_size - x.font_size| < 1) →
    ∀ r ∈ runsAux t x xs rest, ∃ z zs, r = z :: zs ∧
      ∀ y ∈ zs, y.page_num = z.page_num ∧ |y.font_size - z.font_size| < 1
  | [], x, xs, hinv => by
    intro r hr
    simp only [runsAux, List.mem_singleton] at hr
    exact ⟨x, xs, hr, hinv⟩
  | next :: rest, x, xs, hinv => by
    intro r hr
    simp only [runsAux] at hr
    by_cases h : mergeOK t (collapseRun (x :: xs)) next
    · rw [if_pos h] at hr
      refine runsAux_inv t rest x (xs ++ [next]) ?_ r hr
      intro y hy
      rcases List.mem_append.mp hy with hy | hy
      · exact hinv y hy
      · have hy' := List.mem_singleton.mp hy
        have hok := (mergeOK_iff t (collapseRun (x :: xs)) next).mp h
        subst hy' 
        constructor
        · rw [hok.1, collapseRun_cons, foldl_merge1_page_num]
        · have h2 := hok.2.2
          rwa [collapseRun_cons, foldl_merge1_font_size] at h2
    · rw [if_neg h] at hr
      rcases List.mem_cons.mp hr with rfl | hr
      · exact ⟨x, xs, rfl, hinv⟩
      · exact runsAux_inv t rest next [] (by simp) r hr

theorem mergeStepSpec_eq (t : ℚ) (st : List Line × Line) (next : Line) :
    mergeStepSpec t st next =
      if mergeOK t st.2 next then (st.1, merge1 st.2 next) else (st.1 ++ [st.2], next) := by
  rw [mergeStepSpec]
  by_cases h : next.page_num = st.2.page_num ∧ |next.bbox.y0 - st.2.bbox.y1| < t ∧
      |next.font_size - st.2.font_size| < 1
  · rw [if_pos h, if_pos ((mergeOK_iff t st.2 next).mpr h)]
    rfl
  · rw [if_neg h, if_neg (fun hb => h ((mergeOK_iff t st.2 next).mp hb))]

theorem foldl_mergeStepSpec_shift (t : ℚ) : ∀ (ls : List Line) (out : List Line) (cur : Line),
    ls.foldl (mergeStepSpec t) (out, cur) =
      (out ++ (ls.foldl (mergeStepSpec t) ([], cur)).1, (ls.foldl (mergeStepSpec t) ([], cur)).2)
  | [], out, cur => by simp
  | next :: ls, out, cur => by
    simp only [List.foldl_cons, mergeStepSpec_eq]
    by_cases h : mergeOK t cur next
    · simp only [if_pos h]
      exact foldl_mergeStepSpec_shift t ls out (merge1 cur next)
    · simp only [if_neg h]
      rw [foldl_mergeStepSpec_shift t ls (out ++ [cur]) next,
          foldl_mergeStepSpec_shift t ls ([] ++ [cur]) next]
      simp

theorem mergeAux_eq_specFold (t : ℚ) : ∀ (ls : List Line) (cur : Line),
    mergeAux t cur ls =
      (ls.foldl (mergeStepSpec t) ([], cur)).1 ++ [(ls.foldl (mergeStepSpec t) ([], cur)).2]
  | [], cur => rfl
  | next :: ls, cur => by
    simp only [mergeAux, List.foldl_cons, mergeStepSpec_eq]
    by_cases h : mergeOK t cur next
    · simp only [if_pos h]
      exact mergeAux_eq_specFold t ls (merge1 cur next)
    · simp only [if_neg h]
      rw [mergeAux_eq_specFold t ls next, foldl_mergeStepSpec_shift t ls ([] ++ [cur]) next]
      simp

theorem merge_of_adjacent_not_ok (t : ℚ) : ∀ (l : List Line),
    List.Chain' (fun a b => mergeOK t a b = false) l → merge_nearby_lines l t = l
  | [], _ => rfl
  | [x], _ => rfl
  | x :: y :: rest, h => by
    have h1 : mergeOK t x y = false := (List.chain'_cons.mp h).1
    have h2 := (List.chain'_cons.mp h).2
    show mergeAux t x (y :: rest) = _
    simp only [mergeAux]
    rw [if_neg (by simp [h1])]
    exact congrArg (x :: ·) (merge_of_adjacent_not_ok t (y :: rest) h2)

/-! ### Lemmas about text preservation -/

theorem joinSpace_cons (s : String) (l : List String) (h : l ≠ []) :
    joinSpace (s :: l) = s ++ " " ++ joinSpace l := by
  cases l with
  | nil => exact absurd rfl h
  | cons u rest => rfl

theorem joinSpace_append (l1 l2 : List String) (h1 : l1 ≠ []) (h2 : l2 ≠ []) :
    joinSpace (l1 ++ l2) = joinSpace l1 ++ " " ++ joinSpace l2 := by
  induction l1 with
  | nil => exact absurd rfl h1
  | cons s l1 ih =>
    cases l1 with
    | nil =>
      cases l2 with
      | nil => exact absurd rfl h2
      | cons u rest => rfl
    | cons s2 l1' =>
      rw [List.cons_append, joinSpace_cons s ((s2 :: l1') ++ l2) (by simp),
          ih (by simp), joinSpace_cons s (s2 :: l1') (by simp)]
      simp [String.append_assoc]

theorem foldl_merge1_text (xs : List Line) (x : Line) :
    (xs.foldl merge1 x).text = joinSpace ((x :: xs).map (fun l => l.text)) := by
  induction xs generalizing x with
  | nil => rfl
  | cons y ys ih =>
    rw [List.foldl_cons, ih (merge1 x y)]
    cases ys with
    | nil => rfl
    | cons z zs =>
      simp only [List.map_cons]
      rw [joinSpace_cons ((merge1 x y).text) (z.text :: List.map (fun l => l.text) zs)
            (by simp),
          joinSpace_cons x.text (y.text :: z.text :: List.map (fun l => l.text) zs)
            (by simp),
          joinSpace_cons y.text (z.text :: List.map (fun l => l.text) zs) (by simp),
          merge1_text]
      simp [String.append_assoc]

theorem collapseRun_text (r : List Line) (h : r ≠ []) :
    (collapseRun r).text = joinSpace (r.map (fun l => l.text)) := by
  cases r with
  | nil => exact absurd rfl h
  | cons x xs => exact foldl_merge1_text xs x

theorem flatten_ne_nil_of (rs : List (List Line)) (hne : rs ≠ [])
    (h : ∀ r ∈ rs, r ≠ []) : rs.flatten ≠ [] := by
  cases rs with
  | nil => exact absurd rfl hne
  | cons r rs =>
    have hr : r ≠ [] := h r (List.mem_cons_self r rs)
    simp only [List.flatten_cons]
    intro hc
    exact hr (List.append_eq_nil.mp hc).1

theorem joinSpace_map_collapse (rs : List (List Line)) (h : ∀ r ∈ rs, r ≠ []) :
    joinSpace ((rs.map collapseRun).map (fun l => l.text)) =
      joinSpace (rs.flatten.map (fun l => l.text)) := by
  induction rs with
  | nil => rfl
  | cons r rs ih =>
    have hr : r ≠ [] := h r (List.mem_cons_self r rs)
    have hrest : ∀ q ∈ rs, q ≠ [] := fun q hq => h q (List.mem_cons_of_mem r hq)
    have ih' := ih hrest
    cases rs with
    | nil =>
      simp only [List.map_cons, List.map_nil, List.flatten_cons, List.flatten_nil,
        List.append_nil]
      rw [collapseRun_text r hr]
      rfl
    | cons q qs =>
      simp only [List.map_cons, List.flatten_cons] at ih' ⊢
      rw [joinSpace_cons _ _ (by simp), collapseRun_text r hr, List.map_append,
          joinSpace_append _ _ (by simp [hr])
            (by
              have hq : q ≠ [] := hrest q (List.mem_cons_self q qs)
              simp only [ne_eq, List.map_eq_nil_iff, List.append_eq_nil]
              exact fun hc => hq hc.1),
          ih']

theorem length_le_flatten_length (rs : List (List Line)) (h : ∀ r ∈ rs, r ≠ []) :
    rs.length ≤ rs.flatten.length := by
  induction rs with
  | nil => simp
  | cons r rs ih =>
    have hr : r ≠ [] := h r (List.mem_cons_self r rs)
    have hrest := ih (fun q hq => h q (List.mem_cons_of_mem r hq))
    simp only [List.length_cons, List.flatten_cons, List.length_append]
    have : 1 ≤ r.length := List.length_pos.mpr hr
    omega

theorem merge_nearby_lines_ne_nil (t : ℚ) (l : List Line) (h : l ≠ []) :
    merge_nearby_lines l t ≠ [] := by
  cases l with
  | nil => exact absurd rfl h
  | cons x ls =>
    rw [merge_eq_runs_map]
    simp only [ne_eq, List.map_eq_nil_iff]
    exact runsAux_ne_nil t ls x []

theorem ne_nil_of_mem_runs (t : ℚ) (l : List Line) : ∀ r ∈ runs t l, r ≠ [] := by
  cases l with
  | nil => intro r hr; simp [runs] at hr
  | cons a ls => exact ne_nil_of_mem_runsAux t ls a []

theorem runs_head_inv (t : ℚ) (l : List Line) :
    ∀ r ∈ runs t l, ∃ x xs, r = x :: xs ∧
      ∀ y ∈ xs, y.page_num = x.page_num ∧ |y.font_size - x.font_size| < 1 := by
  cases l with
  | nil => intro r hr; simp [runs] at hr
  | cons a ls => exact fun r hr => runsAux_inv t ls a [] (by simp) r hr

/-! ### Claim theorems about the line reconciler -/

/-- C1: `merge_nearby_lines` is exactly the single left-to-right fold of
the spec: one accumulator seeded with the first line; each later line is
merged in iff it has the same page index, an absolute vertical gap
`|next.bbox.y0 - acc.bbox.y1|` below the threshold, and a font-size
difference below 1; merging space-joins the texts and takes the
coordinate-wise bbox union leaving the font size unchanged; otherwise the
accumulator is flushed and the line starts a new accumulator, with a final
flush after the fold. -/
theorem merge_is_the_spec_fold (lines : List Line) (t : ℚ) :
    merge_nearby_lines lines t = mergeSpec lines t := by
  cases lines with
  | nil => rfl
  | cons l ls =>
    show mergeAux t l ls = _
    simp only [mergeSpec]
    exact mergeAux_eq_specFold t ls l

/-- C7: `merge_nearby_lines` partitions its input into contiguous nonempty
runs in original order, each run lying within a single page; its output is
the run-wise collapse, the empty input yields the empty output, and a
singleton input is returned unchanged. -/
theorem merge_partitions_input (t : ℚ) (l : List Line) :
    (runs t l).flatten = l ∧
    (∀ r ∈ runs t l, r ≠ []) ∧
    (∀ r ∈ runs t l, ∀ x ∈ r, ∀ y ∈ r, x.page_num = y.page_num) ∧
    merge_nearby_lines l t = (runs t l).map collapseRun ∧
    merge_nearby_lines [] t = [] ∧
    (∀ x : Line, merge_nearby_lines [x] t = [x]) := by
  refine ⟨runs_join t l, ne_nil_of_mem_runs t l, ?_, merge_eq_runs_map t l, rfl,
    fun x => rfl⟩
  intro r hr x hx y hy
  obtain ⟨z, zs, rfl, hinv⟩ := runs_head_inv t l r hr
  have hx' : x.page_num = z.page_num := by
    rcases List.mem_cons.mp hx with rfl | hx
    · rfl
    · exact (hinv x hx).1
  have hy' : y.page_num = z.page_num := by
    rcases List.mem_cons.mp hy with rfl | hy
    · rfl
    · exact (hinv y hy).1
  rw [hx', hy']

/-- C7 witness: on the concrete input `["t"]` the partition is the
singleton run and merging returns the input unchanged. -/
theorem merge_partitions_input_witness :
    (runs 5 [(⟨"t", 10, 0, ⟨0, 0, 1, 1⟩⟩ : Line)]).flatten = [⟨"t", 10, 0, ⟨0, 0, 1, 1⟩⟩] ∧
    ([(⟨"t", 10, 0, ⟨0, 0, 1, 1⟩⟩ : Line)] ≠ []) ∧
    (⟨"t", 10, 0, ⟨0, 0, 1, 1⟩⟩ : Line).page_num = (⟨"t", 10, 0, ⟨0, 0, 1, 1⟩⟩ : Line).page_num ∧
    merge_nearby_lines [(⟨"t", 10, 0, ⟨0, 0, 1, 1⟩⟩ : Line)] 5 = [⟨"t", 10, 0, ⟨0, 0, 1, 1⟩⟩] := by
  have h := merge_partitions_input 5 [(⟨"t", 10, 0, ⟨0, 0, 1, 1⟩⟩ : Line)]
  exact ⟨h.1,
    h.2.1 [(⟨"t", 10, 0, ⟨0, 0, 1, 1⟩⟩ : Line)] (by simp [runs, runsAux]),
    h.2.2.1 [(⟨"t", 10, 0, ⟨0, 0, 1, 1⟩⟩ : Line)] (by simp [runs, runsAux])
      (⟨"t", 10, 0, ⟨0, 0, 1, 1⟩⟩ : Line) (by simp)
      (⟨"t", 10, 0, ⟨0, 0, 1, 1⟩⟩ : Line) (by simp),
    h.2.2.2.2.2 (⟨"t", 10, 0, ⟨0, 0, 1, 1⟩⟩ : Line)⟩

/-- C8: if no two adjacent lines of the merge output satisfy the merge
predicate (the output is maximal), re-running the merge with the same
threshold returns the output unchanged. -/
theorem merge_idempotent_of_maximal (t : ℚ) (l : List Line)
    (h : List.Chain' (fun a b => mergeOK t a b = false) (merge_nearby_lines l t)) :
    merge_nearby_lines (merge_nearby_lines l t) t = merge_nearby_lines l t :=
  merge_of_adjacent_not_ok t (merge_nearby_lines l t) h

/-- C8 witness: two far-apart lines are not merged, the output is maximal,
and re-merging it is the identity. -/
theorem merge_idempotent_of_maximal_witness :
    merge_nearby_lines
        (merge_nearby_lines [(⟨"a", 10, 0, ⟨0, 0, 1, 1⟩⟩ : Line),
          ⟨"b", 10, 0, ⟨0, 100, 1, 110⟩⟩] 5) 5 =
      merge_nearby_lines [(⟨"a", 10, 0, ⟨0, 0, 1, 1⟩⟩ : Line),
        ⟨"b", 10, 0, ⟨0, 100, 1, 110⟩⟩] 5 :=
  merge_idempotent_of_maximal 5 _ (by
    have hok : mergeOK 5 (⟨"a", 10, 0, ⟨0, 0, 1, 1⟩⟩ : Line)
        ⟨"b", 10, 0, ⟨0, 100, 1, 110⟩⟩ = false := by
      simp only [mergeOK]
      norm_num
    simp [merge_nearby_lines, mergeAux, hok])

/-- C9: within every run of constituents collapsed by the merge into one
output line, all constituents share the page index of the first
constituent, the collapsed line keeps the first constituent's font size
(and page), every constituent's font size is within 1 of the first
constituent's, and any two constituents' font sizes differ by less
than 2. -/
theorem merged_run_invariants (t : ℚ) (l : List Line) :
    merge_nearby_lines l t = (runs t l).map collapseRun ∧
    ∀ r ∈ runs t l, ∃ x xs, r = x :: xs ∧
      (collapseRun r).font_size = x.font_size ∧
      (collapseRun r).page_num = x.page_num ∧
      (∀ y ∈ r, y.page_num = x.page_num ∧ |y.font_size - x.font_size| < 1) ∧
      (∀ y ∈ r, ∀ z ∈ r, |y.font_size - z.font_size| < 2) := by
  refine ⟨merge_eq_runs_map t l, ?_⟩
  intro r hr
  obtain ⟨x, xs, rfl, hinv⟩ := runs_head_inv t l r hr
  have hall : ∀ y ∈ x :: xs, y.page_num = x.page_num ∧ |y.font_size - x.font_size| < 1 := by
    intro y hy
    rcases List.mem_cons.mp hy with rfl | hy
    · exact ⟨rfl, by simp⟩
    · exact hinv y hy
  refine ⟨x, xs, rfl, ?_, ?_, hall, ?_⟩
  · rw [collapseRun_cons, foldl_merge1_font_size]
  · rw [collapseRun_cons, foldl_merge1_page_num]
  · intro y hy z hz
    have hy' := (hall y hy).2
    have hz' := (hall z hz).2
    have htri : |y.font_size - z.font_size| ≤
        |y.font_size - x.font_size| + |x.font_size - z.font_size| := abs_sub_le _ _ _
    rw [abs_sub_comm x.font_size z.font_size] at htri
    linarith

/-- C9 witness: the invariants instantiated on the singleton run of the
one-line document. -/
theorem merged_run_invariants_witness :
    ∃ x xs, ([(⟨"t", 10, 0, ⟨0, 0, 1, 1⟩⟩ : Line)] : List Line) = x :: xs ∧
      (collapseRun [(⟨"t", 10, 0, ⟨0, 0, 1, 1⟩⟩ : Line)]).font_size = x.font_size ∧
      (collapseRun [(⟨"t", 10, 0, ⟨0, 0, 1, 1⟩⟩ : Line)]).page_num = x.page_num ∧
      (∀ y ∈ ([(⟨"t", 10, 0, ⟨0, 0, 1, 1⟩⟩ : Line)] : List Line),
        y.page_num = x.page_num ∧ |y.font_size - x.font_size| < 1) ∧
      (∀ y ∈ ([(⟨"t", 10, 0, ⟨0, 0, 1, 1⟩⟩ : Line)] : List Line),
        ∀ z ∈ ([(⟨"t", 10, 0, ⟨0, 0, 1, 1⟩⟩ : Line)] : List Line),
        |y.font_size - z.font_size| < 2) :=
  (merged_run_invariants 5 [(⟨"t", 10, 0, ⟨0, 0, 1, 1⟩⟩ : Line)]).2
    [(⟨"t", 10, 0, ⟨0, 0, 1, 1⟩⟩ : Line)] (by simp [runs, runsAux])

/-- C10: merging a nonempty input loses no text and no text order (the
space-join of the output texts equals the space-join of the input texts),
never lengthens the list, and never empties it. -/
theorem merge_preserves_text (t : ℚ) (l : List Line) (h : l ≠ []) :
    joinSpace ((merge_nearby_lines l t).map (fun x => x.text)) =
      joinSpace (l.map (fun x => x.text)) ∧
    (merge_nearby_lines l t).length ≤ l.length ∧
    merge_nearby_lines l t ≠ [] := by
  refine ⟨?_, ?_, merge_nearby_lines_ne_nil t l h⟩
  · rw [merge_eq_runs_map, joinSpace_map_collapse (runs t l) (ne_nil_of_mem_runs t l),
      runs_join]
  · rw [merge_eq_runs_map, List.length_map]
    have := length_le_flatten_length (runs t l) (ne_nil_of_mem_runs t l)
    rwa [runs_join] at this

/-- C10 witness: text is preserved on a concrete two-line input. -/
theorem merge_preserves_text_witness :
    joinSpace ((merge_nearby_lines [(⟨"a", 10, 0, ⟨0, 0, 1, 1⟩⟩ : Line),
        ⟨"b", 10, 0, ⟨0, 2, 1, 3⟩⟩] 5).map (fun x => x.text)) =
      joinSpace (([(⟨"a", 10, 0, ⟨0, 0, 1, 1⟩⟩ : Line),
        ⟨"b", 10, 0, ⟨0, 2, 1, 3⟩⟩]).map (fun x => x.text)) ∧
    (merge_nearby_lines [(⟨"a", 10, 0, ⟨0, 0, 1, 1⟩⟩ : Line),
        ⟨"b", 10, 0, ⟨0, 2, 1, 3⟩⟩] 5).length ≤
      ([(⟨"a", 10, 0, ⟨0, 0, 1, 1⟩⟩ : Line), ⟨"b", 10, 0, ⟨0, 2, 1, 3⟩⟩] : List Line).length ∧
    merge_nearby_lines [(⟨"a", 10, 0, ⟨0, 0, 1, 1⟩⟩ : Line),
      ⟨"b", 10, 0, ⟨0, 2, 1, 3⟩⟩] 5 ≠ [] :=
  merge_preserves_text 5 _ (by simp)

/-! ### Lemmas about the outline inferencer -/

theorem foldl_if_append_eq_filter (p : Line → Bool) :
    ∀ (l : List Line) (acc : List Line),
      l.foldl (fun acc x => if p x then acc ++ [x] else acc) acc = acc ++ l.filter p
  | [], acc => by simp
  | x :: l, acc => by
    simp only [List.foldl_cons, List.filter_cons]
    by_cases h : p x
    · rw [if_pos h, if_pos h, foldl_if_append_eq_filter p l (acc ++ [x])]
      simp
    · rw [if_neg h, if_neg h, foldl_if_append_eq_filter p l acc]

theorem candidatesLoop_eq_filter (bbs : List BBox) (b : ℚ) (lines : List Line) :
    candidatesLoop bbs b lines =
      lines.filter (fun l =>
        decide (l.bbox ∉ bbs ∧ b < l.font_size ∧ wordCount l.text < 20)) := by
  have hfun : (fun (acc : List Line) (l : Line) =>
      if l.bbox ∈ bbs then acc
      else if b < l.font_size ∧ wordCount l.text < 20 then acc ++ [l] else acc) =
      (fun (acc : List Line) (x : Line) =>
        if (decide (x.bbox ∉ bbs ∧ b < x.font_size ∧ wordCount x.text < 20) : Bool) then
          acc ++ [x]
        else acc) := by
    funext acc x
    by_cases h1 : x.bbox ∈ bbs
    · simp [h1]
    · by_cases h2 : b < x.font_size ∧ wordCount x.text < 20
      · simp [h1, h2]
      · simp [h1, h2]
  rw [candidatesLoop, hfun, foldl_if_append_eq_filter]
  simp

theorem foldl_opt_append_eq_filterMap (f : Line → Option String) (g : Line → String → Heading) :
    ∀ (l : List Line) (acc : List Heading),
      l.foldl (fun acc c => match f c with | some y => acc ++ [g c y] | none => acc) acc =
        acc ++ l.filterMap (fun c => (f c).map (g c))
  | [], acc => by simp
  | c :: l, acc => by
    rw [List.foldl_cons, List.filterMap_cons]
    cases hfc : f c with
    | none =>
      simp only [hfc, Option.map_none']
      exact foldl_opt_append_eq_filterMap f g l acc
    | some y =>
      simp only [hfc, Option.map_some']
      rw [foldl_opt_append_eq_filterMap f g l (acc ++ [g c y])]
      simp

theorem le_foldl_max (q : ℚ) (l : List ℚ) : q ≤ l.foldl max q := by
  induction l generalizing q with
  | nil => simp
  | cons v vs ih =>
    rw [List.foldl_cons]
    exact le_trans (le_max_left q v) (ih (max q v))

theorem mem_le_foldl_max (q : ℚ) (l : List ℚ) : ∀ v ∈ l, v ≤ l.foldl max q := by
  induction l generalizing q with
  | nil => simp
  | cons w ws ih =>
    intro v hv
    rw [List.foldl_cons]
    rcases List.mem_cons.mp hv with rfl | hv
    · exact le_trans (le_max_right q v) (le_foldl_max (max q v) ws)
    · exact ih (max q w) v hv

theorem foldl_max_mem (q : ℚ) (l : List ℚ) : l.foldl max q = q ∨ l.foldl max q ∈ l := by
  induction l generalizing q with
  | nil => simp
  | cons w ws ih =>
    rw [List.foldl_cons]
    rcases ih (max q w) with h | h
    · rw [h]
      rcases max_choice q w with hm | hm
      · left; exact hm
      · right; rw [hm]; exact List.mem_cons_self w ws
    · right; exact List.mem_cons_of_mem w h

theorem max_font_size_spec (fp : List Line) (h : fp ≠ []) :
    (∃ l ∈ fp, l.font_size = max_font_size fp) ∧
      ∀ l ∈ fp, l.font_size ≤ max_font_size fp := by
  cases fp with
  | nil => exact absurd rfl h
  | cons x xs =>
    constructor
    · rw [max_font_size]
      rcases foldl_max_mem x.font_size (xs.map (fun l => l.font_size)) with hm | hm
      · exact ⟨x, List.mem_cons_self x xs, hm.symm⟩
      · rcases List.mem_map.mp hm with ⟨l, hl, hfl⟩
        exact ⟨l, List.mem_cons_of_mem x hl, hfl⟩
    · intro l hl
      rw [max_font_size]
      rcases List.mem_cons.mp hl with rfl | hl
      · exact le_foldl_max _ _
      · exact mem_le_foldl_max _ _ _ (List.mem_map_of_mem _ hl)

theorem mem_firstOccsAux (l : List ℚ) : ∀ (seen : List ℚ) (v : ℚ),
    v ∈ firstOccsAux seen l ↔ v ∈ l ∧ v ∉ seen := by
  induction l with
  | nil => intro seen v; simp [firstOccsAux]
  | cons x xs ih =>
    intro seen v
    simp only [firstOccsAux]
    by_cases hx : x ∈ seen
    · rw [if_pos hx, ih seen v]
      simp only [List.mem_cons]
      constructor
      · exact fun ⟨h1, h2⟩ => ⟨Or.inr h1, h2⟩
      · rintro ⟨h1 | h1, h2⟩
        · exact absurd (h1 ▸ hx) h2
        · exact ⟨h1, h2⟩
    · rw [if_neg hx]
      simp only [List.mem_cons, ih (x :: seen) v, List.mem_cons]
      by_cases hvx : v = x
      · subst hvx
        simp [hx]
      · simp [hvx]

theorem mem_firstOccs (l : List ℚ) (v : ℚ) : v ∈ firstOccs l ↔ v ∈ l := by
  simp [firstOccs, mem_firstOccsAux]

theorem firstOccs_ne_nil (l : List ℚ) (h : l ≠ []) : firstOccs l ≠ [] := by
  cases l with
  | nil => exact absurd rfl h
  | cons x xs =>
    intro hc
    have hx : x ∈ firstOccs (x :: xs) :=
      (mem_firstOccs (x :: xs) x).mpr (List.mem_cons_self x xs)
    rw [hc] at hx
    simp at hx

theorem firstOccs_nodup (l : List ℚ) : (firstOccs l).Nodup := by
  suffices h : ∀ seen, (firstOccsAux seen l).Nodup by exact h []
  induction l with
  | nil => intro seen; simp [firstOccsAux]
  | cons x xs ih =>
    intro seen
    simp only [firstOccsAux]
    by_cases hx : x ∈ seen
    · rw [if_pos hx]; exact ih seen
    · rw [if_neg hx]
      refine List.Nodup.cons ?_ (ih (x :: seen))
      intro hc
      exact ((mem_firstOccsAux xs (x :: seen) x).mp hc).2 (List.mem_cons_self x seen)

theorem pickMost_mem (f : ℚ → ℕ) : ∀ (l : List ℚ) (best : ℚ), pickMost f best l ∈ best :: l
  | [], best => by simp [pickMost]
  | w :: ws, best => by
    simp only [pickMost]
    by_cases h : f best < f w
    · rw [if_pos h]
      rcases List.mem_cons.mp (pickMost_mem f ws w) with he | he
      · rw [he]; simp
      · simp [List.mem_cons, Or.inr (Or.inr he)]
    · rw [if_neg h]
      rcases List.mem_cons.mp (pickMost_mem f ws best) with he | he
      · rw [he]; simp
      · simp [List.mem_cons, Or.inr (Or.inr he)]

theorem le_pickMost (f : ℚ → ℕ) : ∀ (l : List ℚ) (best : ℚ),
    ∀ v ∈ best :: l, f v ≤ f (pickMost f best l)
  | [], best => by
    intro v hv
    rw [List.mem_singleton] at hv
    subst hv
    simp [pickMost]
  | w :: ws, best => by
    intro v hv
    simp only [pickMost]
    by_cases h : f best < f w
    · rw [if_pos h]
      rcases List.mem_cons.mp hv with rfl | hv
      · exact le_trans (le_of_lt h) (le_pickMost f ws w w (List.mem_cons_self w ws))
      · rcases List.mem_cons.mp hv with rfl | hv
        · exact le_pickMost f ws v v (List.mem_cons_self v ws)
        · exact le_pickMost f ws w v (List.mem_cons_of_mem w hv)
    · rw [if_neg h]
      rcases List.mem_cons.mp hv with rfl | hv
      · exact le_pickMost f ws v v (List.mem_cons_self v ws)
      · rcases List.mem_cons.mp hv with rfl | hv
        · exact le_trans (le_of_not_lt h)
            (le_pickMost f ws best best (List.mem_cons_self best ws))
        · exact le_pickMost f ws best v (List.mem_cons_of_mem best hv)

theorem pickMost_first (f : ℚ → ℕ) : ∀ (l : List ℚ) (best : ℚ),
    ∃ pre post, best :: l = pre ++ pickMost f best l :: post ∧
      ∀ v ∈ pre, f v < f (pickMost f best l)
  | [], best => ⟨[], [], by simp [pickMost], by simp⟩
  | w :: ws, best => by
    simp only [pickMost]
    by_cases h : f best < f w
    · rw [if_pos h]
      obtain ⟨pre, post, heq, hlt⟩ := pickMost_first f ws w
      refine ⟨best :: pre, post, ?_, ?_⟩
      · rw [List.cons_append, ← heq]
      · intro v hv
        rcases List.mem_cons.mp hv with rfl | hv
        · exact lt_of_lt_of_le h (le_pickMost f ws w w (List.mem_cons_self w ws))
        · exact hlt v hv
    · rw [if_neg h]
      obtain ⟨pre, post, heq, hlt⟩ := pickMost_first f ws best
      cases pre with
      | nil =>
        simp only [List.nil_append] at heq
        have hb : best = pickMost f best ws := (List.cons_eq_cons.mp heq).1
        exact ⟨[], w :: ws, by rw [List.nil_append, ← hb], by simp⟩
      | cons p ps =>
        rw [List.cons_append] at heq
        have hb : best = p := (List.cons_eq_cons.mp heq).1
        have hws : ws = ps ++ pickMost f best ws :: post := (List.cons_eq_cons.mp heq).2
        have hbestlt : f best < f (pickMost f best ws) := by
          have hp := hlt p (List.mem_cons_self p ps)
          rwa [← hb] at hp
        refine ⟨best :: w :: ps, post, ?_, ?_⟩
        · rw [List.cons_append, List.cons_append, ← hws]
        · intro v hv
          rcases List.mem_cons.mp hv with rfl | hv
          · exact hbestlt
          · rcases List.mem_cons.mp hv with rfl | hv
            · exact lt_of_le_of_lt (le_of_not_lt h) hbestlt
            · exact hlt v (List.mem_cons_of_mem p hv)

theorem mostCommon_spec (l : List ℚ) (h : l ≠ []) :
    mostCommon l ∈ l ∧
    (∀ v ∈ l, countQ l v ≤ countQ l (mostCommon l)) ∧
    ∃ pre post, firstOccs l = pre ++ mostCommon l :: post ∧
      ∀ v ∈ pre, countQ l v < countQ l (mostCommon l) := by
  rcases hfo : firstOccs l with _ | ⟨v, vs⟩
  · exact absurd hfo (firstOccs_ne_nil l h)
  · have hmc : mostCommon l = pickMost (countQ l) v vs := by
      rw [mostCommon, hfo]
    refine ⟨?_, ?_, ?_⟩
    · rw [hmc]
      have hmem := pickMost_mem (countQ l) vs v
      rw [← hfo] at hmem
      exact (mem_firstOccs l _).mp hmem
    · intro w hw
      have hw' : w ∈ firstOccs l := (mem_firstOccs l w).mpr hw
      rw [hfo] at hw'
      rw [hmc]
      exact le_pickMost (countQ l) vs v w hw'
    · rw [hmc]
      exact pickMost_first (countQ l) vs v

theorem title_lines_eq (lines : List Line) :
    title_lines lines = lines.filter (fun l =>
      decide (l.page_num = 0 ∧ l.font_size = max_font_size (first_page_lines lines))) := by
  rw [title_lines]
  conv_lhs => rw [first_page_lines]
  rw [List.filter_filter]
  apply List.filter_congr
  intro x hx
  simp [Bool.decide_and, Bool.and_comm, first_page_lines]

/-- C2: when page-0 lines exist, the title is the space-join, in original
relative order, of exactly the page-0 lines whose font size equals the
page-0 maximum (exact equality); those lines' bboxes are reserved, and any
line of the whole document whose bbox equals a reserved bbox (four-tuple
value equality) is excluded from heading candidacy; with no page-0 line
the title is empty and nothing is reserved. -/
theorem title_extraction (lines : List Line) :
    (first_page_lines lines ≠ [] →
      (∃ l ∈ first_page_lines lines,
        l.font_size = max_font_size (first_page_lines lines)) ∧
      (∀ l ∈ first_page_lines lines,
        l.font_size ≤ max_font_size (first_page_lines lines)) ∧
      (titleInfo lines).1 = joinSpace ((lines.filter (fun l =>
        decide (l.page_num = 0 ∧
          l.font_size = max_font_size (first_page_lines lines)))).map (fun l => l.text)) ∧
      (titleInfo lines).2 = (lines.filter (fun l =>
        decide (l.page_num = 0 ∧
          l.font_size = max_font_size (first_page_lines lines)))).map (fun l => l.bbox) ∧
      (∀ b : ℚ, ∀ l ∈ lines, l.bbox ∈ (titleInfo lines).2 →
        l ∉ candidatesLoop (titleInfo lines).2 b lines)) ∧
    (first_page_lines lines = [] → titleInfo lines = ("", [])) := by
  constructor
  · intro h
    have hmax := max_font_size_spec (first_page_lines lines) h
    have ht1 : (titleInfo lines).1 =
        joinSpace ((title_lines lines).map (fun l => l.text)) := by
      rw [titleInfo, if_neg h]
    have ht2 : (titleInfo lines).2 = (title_lines lines).map (fun l => l.bbox) := by
      rw [titleInfo, if_neg h]
    refine ⟨hmax.1, hmax.2, ?_, ?_, ?_⟩
    · rw [ht1, title_lines_eq]
    · rw [ht2, title_lines_eq]
    · intro b l hl hbb hmem
      rw [candidatesLoop_eq_filter] at hmem
      have hp := List.of_mem_filter hmem
      simp only [decide_eq_true_eq] at hp
      exact hp.1 hbb
  · intro h
    rw [titleInfo, if_pos h]

/-- C2 witness: one page-0 line of font 24; it is the unique max-font
line, the title, and its bbox is reserved. -/
theorem title_extraction_witness :
    (∃ l ∈ first_page_lines [(⟨"Title", 24, 0, ⟨0, 0, 5, 5⟩⟩ : Line)],
      l.font_size = max_font_size (first_page_lines [(⟨"Title", 24, 0, ⟨0, 0, 5, 5⟩⟩ : Line)])) ∧
    (∀ l ∈ first_page_lines [(⟨"Title", 24, 0, ⟨0, 0, 5, 5⟩⟩ : Line)],
      l.font_size ≤ max_font_size (first_page_lines [(⟨"Title", 24, 0, ⟨0, 0, 5, 5⟩⟩ : Line)])) ∧
    (titleInfo [(⟨"Title", 24, 0, ⟨0, 0, 5, 5⟩⟩ : Line)]).1 =
      joinSpace (([(⟨"Title", 24, 0, ⟨0, 0, 5, 5⟩⟩ : Line)].filter (fun l =>
        decide (l.page_num = 0 ∧ l.font_size =
          max_font_size (first_page_lines [(⟨"Title", 24, 0, ⟨0, 0, 5, 5⟩⟩ : Line)])))).map
            (fun l => l.text)) ∧
    (titleInfo [(⟨"Title", 24, 0, ⟨0, 0, 5, 5⟩⟩ : Line)]).2 =
      ([(⟨"Title", 24, 0, ⟨0, 0, 5, 5⟩⟩ : Line)].filter (fun l =>
        decide (l.page_num = 0 ∧ l.font_size =
          max_font_size (first_page_lines [(⟨"Title", 24, 0, ⟨0, 0, 5, 5⟩⟩ : Line)])))).map
            (fun l => l.bbox) ∧
    (∀ b : ℚ, ∀ l ∈ [(⟨"Title", 24, 0, ⟨0, 0, 5, 5⟩⟩ : Line)],
      l.bbox ∈ (titleInfo [(⟨"Title", 24, 0, ⟨0, 0, 5, 5⟩⟩ : Line)]).2 →
      l ∉ candidatesLoop (titleInfo [(⟨"Title", 24, 0, ⟨0, 0, 5, 5⟩⟩ : Line)]).2 b
        [(⟨"Title", 24, 0, ⟨0, 0, 5, 5⟩⟩ : Line)]) :=
  (title_extraction [(⟨"Title", 24, 0, ⟨0, 0, 5, 5⟩⟩ : Line)]).1 (by simp [first_page_lines])

/-- C3: for a nonempty document the candidate set is exactly the lines
whose bbox is not reserved, whose font size strictly exceeds the baseline,
and whose whitespace-split word count is below 20; the baseline is the
most frequent font size over the whole document, ties broken by first
encounter. -/
theorem candidate_selection (lines : List Line) :
    candidates lines = lines.filter (fun l =>
      decide (l.bbox ∉ (titleInfo lines).2 ∧
        baseline_size lines < l.font_size ∧ wordCount l.text < 20)) ∧
    (lines ≠ [] →
      baseline_size lines ∈ lines.map (fun l => l.font_size) ∧
      (∀ v ∈ lines.map (fun l => l.font_size),
        countQ (lines.map (fun l => l.font_size)) v ≤
          countQ (lines.map (fun l => l.font_size)) (baseline_size lines)) ∧
      ∃ pre post, firstOccs (lines.map (fun l => l.font_size)) =
          pre ++ baseline_size lines :: post ∧
        ∀ v ∈ pre, countQ (lines.map (fun l => l.font_size)) v <
          countQ (lines.map (fun l => l.font_size)) (baseline_size lines)) := by
  constructor
  · simp only [candidates]
    exact candidatesLoop_eq_filter (titleInfo lines).2 (baseline_size lines) lines
  · intro h
    have hm : lines.map (fun l => l.font_size) ≠ [] := by
      simpa using h
    exact mostCommon_spec (lines.map (fun l => l.font_size)) hm

/-- C3 witness: the baseline facts instantiated on a one-line document. -/
theorem candidate_selection_witness :
    baseline_size [(⟨"t", 10, 0, ⟨0, 0, 1, 1⟩⟩ : Line)] ∈
      [(⟨"t", 10, 0, ⟨0, 0, 1, 1⟩⟩ : Line)].map (fun l => l.font_size) ∧
    (∀ v ∈ [(⟨"t", 10, 0, ⟨0, 0, 1, 1⟩⟩ : Line)].map (fun l => l.font_size),
      countQ ([(⟨"t", 10, 0, ⟨0, 0, 1, 1⟩⟩ : Line)].map (fun l => l.font_size)) v ≤
        countQ ([(⟨"t", 10, 0, ⟨0, 0, 1, 1⟩⟩ : Line)].map (fun l => l.font_size))
          (baseline_size [(⟨"t", 10, 0, ⟨0, 0, 1, 1⟩⟩ : Line)])) ∧
    ∃ pre post, firstOccs ([(⟨"t", 10, 0, ⟨0, 0, 1, 1⟩⟩ : Line)].map (fun l => l.font_size)) =
        pre ++ baseline_size [(⟨"t", 10, 0, ⟨0, 0, 1, 1⟩⟩ : Line)] :: post ∧
      ∀ v ∈ pre, countQ ([(⟨"t", 10, 0, ⟨0, 0, 1, 1⟩⟩ : Line)].map (fun l => l.font_size)) v <
        countQ ([(⟨"t", 10, 0, ⟨0, 0, 1, 1⟩⟩ : Line)].map (fun l => l.font_size))
          (baseline_size [(⟨"t", 10, 0, ⟨0, 0, 1, 1⟩⟩ : Line)]) :=
  (candidate_selection [(⟨"t", 10, 0, ⟨0, 0, 1, 1⟩⟩ : Line)]).2 (by simp)

theorem idxOfQ_lt_length (sz : ℚ) : ∀ (l : List ℚ) (i : ℕ), idxOfQ sz l = some i → i < l.length
  | [], i => by simp [idxOfQ]
  | v :: vs, i => by
    simp only [idxOfQ]
    by_cases h : v = sz
    · rw [if_pos h]
      intro hi
      cases hi
      simp
    · rw [if_neg h]
      intro hi
      rcases Option.map_eq_some'.mp hi with ⟨j, hj, hji⟩
      have hjl := idxOfQ_lt_length sz vs j hj
      rw [← hji, List.length_cons]
      omega

theorem idxOfQ_isSome_iff (sz : ℚ) : ∀ (l : List ℚ), (idxOfQ sz l).isSome ↔ sz ∈ l
  | [] => by simp [idxOfQ]
  | v :: vs => by
    simp only [idxOfQ]
    by_cases h : v = sz
    · rw [if_pos h]
      simp [h]
    · rw [if_neg h]
      rw [List.mem_cons]
      have hrec := idxOfQ_isSome_iff sz vs
      simp only [Option.isSome_map']
      rw [hrec]
      constructor
      · exact fun hm => Or.inr hm
      · rintro (rfl | hm)
        · exact absurd rfl h
        · exact hm

theorem size_to_level_isSome_iff (tops : List ℚ) (sz : ℚ) :
    (size_to_level tops sz).isSome ↔ sz ∈ tops := by
  rw [size_to_level, Option.isSome_map']
  exact idxOfQ_isSome_iff sz tops

theorem size_to_level_mem_H (tops : List ℚ) (hlen : tops.length ≤ 4) (sz : ℚ) (s : String)
    (h : size_to_level tops sz = some s) : s ∈ (["H1", "H2", "H3", "H4"] : List String) := by
  rw [size_to_level] at h
  rcases Option.map_eq_some'.mp h with ⟨i, hi, hs⟩
  have hlt : i < tops.length := idxOfQ_lt_length sz tops i hi
  have hi4 : i < 4 := lt_of_lt_of_le hlt hlen
  subst hs
  interval_cases i
  · decide
  · decide
  · decide
  · decide

theorem headingsOf_eq_filterMap (tops : List ℚ) (cands : List Line) :
    headingsOf tops cands = cands.filterMap (fun c =>
      (size_to_level tops c.font_size).map
        (fun lvl => (⟨lvl, c.text, c.page_num + 1, c.bbox⟩ : Heading))) := by
  have h := foldl_opt_append_eq_filterMap (fun c => size_to_level tops c.font_size)
    (fun c lvl => (⟨lvl, c.text, c.page_num + 1, c.bbox⟩ : Heading)) cands []
  rw [List.nil_append] at h
  exact h

theorem heading_font_sizes_ne_nil (cands : List Line) (h : cands ≠ []) :
    heading_font_sizes cands ≠ [] := by
  rw [heading_font_sizes]
  intro hc
  have hperm := List.mergeSort_perm (firstOccs (cands.map fun c => c.font_size))
    (fun a b : ℚ => decide (b ≤ a))
  rw [hc] at hperm
  exact firstOccs_ne_nil (cands.map fun c => c.font_size) (by simpa using h)
    hperm.symm.eq_nil

theorem heading_font_sizes_sorted (cands : List Line) :
    List.Pairwise (fun a b : ℚ => b < a) (heading_font_sizes cands) := by
  have hpw : List.Pairwise (fun a b : ℚ => decide (b ≤ a) = true)
      (heading_font_sizes cands) := by
    rw [heading_font_sizes]
    apply List.sorted_mergeSort
    · intro a b c hab hbc
      simp only [decide_eq_true_eq] at *
      exact le_trans hbc hab
    · intro a b
      simp only [Bool.or_eq_true, decide_eq_true_eq]
      exact le_total b a
  have hnd : (heading_font_sizes cands).Nodup := by
    rw [heading_font_sizes]
    have hperm := List.mergeSort_perm (firstOccs (cands.map fun c => c.font_size))
      (fun a b : ℚ => decide (b ≤ a))
    exact hperm.symm.nodup (firstOccs_nodup _)
  refine (hpw.and hnd).imp ?_
  rintro a b ⟨h1, h2⟩
  simp only [decide_eq_true_eq] at h1
  exact lt_of_le_of_ne h1 (Ne.symm h2)

theorem mem_heading_font_sizes (cands : List Line) (v : ℚ) :
    v ∈ heading_font_sizes cands ↔ v ∈ cands.map (fun c => c.font_size) := by
  rw [heading_font_sizes, List.mem_mergeSort, mem_firstOccs]

theorem mem_take_of_sorted_strict (L : List ℚ)
    (hs : List.Pairwise (fun a b : ℚ => b < a) L) :
    ∀ (n : ℕ) (sz : ℚ), sz ∈ L.take n ↔
      sz ∈ L ∧ (L.filter (fun u => decide (sz < u))).length < n := by
  induction L with
  | nil => intro n sz; simp
  | cons a L ih =>
    intro n sz
    have ha : ∀ u ∈ L, u < a := fun u hu => (List.pairwise_cons.mp hs).1 u hu
    have hs' := (List.pairwise_cons.mp hs).2
    cases n with
    | zero => simp
    | succ m =>
      rw [List.take_succ_cons]
      by_cases hsz : sz = a
      · subst hsz
        have hfilt : (List.filter (fun u => decide (sz < u)) (sz :: L)) = [] := by
          rw [List.filter_eq_nil_iff]
          intro u hu
          rcases List.mem_cons.mp hu with rfl | hu
          · simp
          · simp only [decide_eq_true_eq]
            exact not_lt.mpr (le_of_lt (ha u hu))
        simp [hfilt]
      · by_cases hlt : sz < a
        · have hfilt : (List.filter (fun u => decide (sz < u)) (a :: L)) =
              a :: List.filter (fun u => decide (sz < u)) L := by
            rw [List.filter_cons, if_pos (by simpa using hlt)]
          rw [List.mem_cons, List.mem_cons, hfilt, List.length_cons, ih hs' m sz]
          simp only [hsz, false_or]
          constructor
          · rintro ⟨h1, h2⟩
            exact ⟨h1, by omega⟩
          · rintro ⟨h1, h2⟩
            exact ⟨h1, by omega⟩
        · have hgt : a < sz := lt_of_le_of_ne (le_of_not_lt hlt) (fun hc => hsz hc.symm)
          have hnotinL : sz ∉ L := fun hc => absurd (ha sz hc) (not_lt.mpr (le_of_lt hgt))
          have hnotintake : sz ∉ L.take m := fun hc => hnotinL (List.mem_of_mem_take hc)
          simp [List.mem_cons, hsz, hnotinL, hnotintake]

/-- C4: level assignment takes the distinct candidate font sizes sorted
descending, keeps at most the top 4, and maps them in order to
"H1".."H4": a size is kept iff fewer than 4 distinct candidate sizes
exceed it (so with 6 distinct sizes the 2 smallest tiers vanish), a
candidate yields a heading iff its size is kept, every emitted level is
one of "H1".."H4" (none below "H4"), and the largest candidate size maps
to "H1". -/
theorem level_assignment (cands : List Line) :
    ((heading_font_sizes cands).take 4).length ≤ 4 ∧
    (∀ sz : ℚ, sz ∈ (heading_font_sizes cands).take 4 ↔
      sz ∈ heading_font_sizes cands ∧
        ((heading_font_sizes cands).filter (fun u => decide (sz < u))).length < 4) ∧
    (∀ sz : ℚ, sz ∈ heading_font_sizes cands ↔ sz ∈ cands.map (fun c => c.font_size)) ∧
    (∀ sz : ℚ, (size_to_level ((heading_font_sizes cands).take 4) sz).isSome ↔
      sz ∈ (heading_font_sizes cands).take 4) ∧
    headingsOf ((heading_font_sizes cands).take 4) cands =
      cands.filterMap (fun c =>
        (size_to_level ((heading_font_sizes cands).take 4) c.font_size).map
          (fun lvl => (⟨lvl, c.text, c.page_num + 1, c.bbox⟩ : Heading))) ∧
    (∀ h ∈ headingsOf ((heading_font_sizes cands).take 4) cands,
      h.level ∈ (["H1", "H2", "H3", "H4"] : List String)) ∧
    (cands ≠ [] → ∃ u rest, (heading_font_sizes cands).take 4 = u :: rest ∧
      size_to_level ((heading_font_sizes cands).take 4) u = some "H1" ∧
      ∀ c ∈ cands, c.font_size ≤ u) := by
  have hlen4 : ((heading_font_sizes cands).take 4).length ≤ 4 := by
    rw [List.length_take]
    exact min_le_left _ _
  refine ⟨hlen4,
    fun sz => mem_take_of_sorted_strict _ (heading_font_sizes_sorted cands) 4 sz,
    fun sz => mem_heading_font_sizes cands sz,
    fun sz => size_to_level_isSome_iff _ sz,
    headingsOf_eq_filterMap _ cands, ?_, ?_⟩
  · intro h hh
    rw [headingsOf_eq_filterMap] at hh
    rcases List.mem_filterMap.mp hh with ⟨c, hc, hmap⟩
    rcases Option.map_eq_some'.mp hmap with ⟨lvl, hlvl, hheading⟩
    have hlev : h.level = lvl := by rw [← hheading]
    rw [hlev]
    exact size_to_level_mem_H _ hlen4 _ lvl hlvl
  · intro hne
    rcases hhfs : heading_font_sizes cands with _ | ⟨u, rest'⟩
    · exact absurd hhfs (heading_font_sizes_ne_nil cands hne)
    · have htake : (u :: rest').take 4 = u :: rest'.take 3 := rfl
      refine ⟨u, rest'.take 3, ?_, ?_, ?_⟩
      · exact htake
      · rw [htake]
        have hidx : idxOfQ u (u :: rest'.take 3) = some 0 := by simp [idxOfQ]
        rw [size_to_level, hidx]
        rfl
      · intro c hc
        have hcmem : c.font_size ∈ heading_font_sizes cands :=
          (mem_heading_font_sizes cands c.font_size).mpr (List.mem_map_of_mem _ hc)
        rw [hhfs] at hcmem
        rcases List.mem_cons.mp hcmem with he | hmem
        · exact le_of_eq he
        · have hsort := heading_font_sizes_sorted cands
          rw [hhfs] at hsort
          exact le_of_lt ((List.pairwise_cons.mp hsort).1 c.font_size hmem)

/-- C4 witness: on a single candidate of font size 20, the top tier list
is the singleton and it maps to "H1". -/
theorem level_assignment_witness :
    ∃ u rest,
      (heading_font_sizes [(⟨"Heading", 20, 0, ⟨0, 10, 5, 12⟩⟩ : Line)]).take 4 = u :: rest ∧
      size_to_level ((heading_font_sizes [(⟨"Heading", 20, 0, ⟨0, 10, 5, 12⟩⟩ : Line)]).take 4)
        u = some "H1" ∧
      ∀ c ∈ [(⟨"Heading", 20, 0, ⟨0, 10, 5, 12⟩⟩ : Line)], c.font_size ≤ u :=
  (level_assignment [(⟨"Heading", 20, 0, ⟨0, 10, 5, 12⟩⟩ : Line)]).2.2.2.2.2.2 (by simp)

theorem sortLE_trans (a b c : Heading) (hab : sortLE a b = true) (hbc : sortLE b c = true) :
    sortLE a c = true := by
  simp only [sortLE, decide_eq_true_eq] at *
  rcases hab with h1 | ⟨h1, h2⟩
  · rcases hbc with h3 | ⟨h3, h4⟩
    · exact Or.inl (lt_trans h1 h3)
    · exact Or.inl (h3 ▸ h1)
  · rcases hbc with h3 | ⟨h3, h4⟩
    · exact Or.inl (h1 ▸ h3)
    · exact Or.inr ⟨h1.trans h3, le_trans h2 h4⟩

theorem sortLE_total (a b : Heading) : sortLE a b || sortLE b a := by
  simp only [sortLE, Bool.or_eq_true, decide_eq_true_eq]
  rcases Nat.lt_trichotomy a.page b.page with h | h | h
  · exact Or.inl (Or.inl h)
  · rcases le_total a.bbox.y0 b.bbox.y0 with hy | hy
    · exact Or.inl (Or.inr ⟨h, hy⟩)
    · exact Or.inr (Or.inr ⟨h.symm, hy⟩)
  · exact Or.inr (Or.inl h)

theorem sortLE_eq_zeroBased (a b : Heading) (ha : 1 ≤ a.page) (hb : 1 ≤ b.page) :
    sortLE a b = sortLEZeroBased a b := by
  rw [sortLE, sortLEZeroBased, decide_eq_decide]
  constructor
  · rintro (h | ⟨h1, h2⟩)
    · exact Or.inl (by omega)
    · exact Or.inr ⟨by omega, h2⟩
  · rintro (h | ⟨h1, h2⟩)
    · exact Or.inl (by omega)
    · exact Or.inr ⟨by omega, h2⟩

theorem docHeadings_mem (lines : List Line) :
    ∀ h ∈ docHeadings lines, 1 ≤ h.page ∧ ∃ c ∈ candidates lines,
      h.text = c.text ∧ h.page = c.page_num + 1 ∧ h.bbox = c.bbox := by
  intro h hh
  rw [docHeadings, headingsOf_eq_filterMap] at hh
  rcases List.mem_filterMap.mp hh with ⟨c, hc, hmap⟩
  rcases Option.map_eq_some'.mp hmap with ⟨lvl, hlvl, hheading⟩
  subst hheading
  exact ⟨by simp, c, hc, rfl, rfl, rfl⟩

/-- C5: the emitted outline is the stable sort of the heading records by
`(page, bbox.y0)` ascending: same-page records are ordered by `y0`,
key-equal records keep their input order, sorting is a permutation, the
comparator agrees with the comparator on the 0-based page index (page
minus one) on all records actually sorted (every record carries
`page_num + 1`), and each emitted entry is the record's (level, text,
page) with the bbox dropped. -/
theorem outline_ordering (lines : List Line) :
    List.Pairwise (fun a b : Heading =>
      a.page ≤ b.page ∧ (a.page = b.page → a.bbox.y0 ≤ b.bbox.y0)) (docSorted lines) ∧
    (∀ a b : Heading, a.page = b.page → a.bbox.y0 = b.bbox.y0 →
      List.Sublist [a, b] (docHeadings lines) →
      List.Sublist [a, b] (docSorted lines)) ∧
    List.Perm (docSorted lines) (docHeadings lines) ∧
    docSorted lines = (docHeadings lines).mergeSort sortLEZeroBased ∧
    (∀ h ∈ docHeadings lines, 1 ≤ h.page ∧ ∃ c ∈ candidates lines,
      h.text = c.text ∧ h.page = c.page_num + 1 ∧ h.bbox = c.bbox) ∧
    (candidates lines ≠ [] →
      (structureOfLines lines).outline =
        (docSorted lines).map (fun h => (⟨h.level, h.text, h.page⟩ : OutlineEntry))) := by
  have hsorted : List.Pairwise (fun a b : Heading => sortLE a b = true) (docSorted lines) := by
    rw [docSorted]
    apply List.sorted_mergeSort sortLE_trans sortLE_total
  refine ⟨?_, ?_, ?_, ?_, docHeadings_mem lines, ?_⟩
  · refine hsorted.imp ?_
    intro a b hab
    simp only [sortLE, decide_eq_true_eq] at hab
    rcases hab with h | ⟨h1, h2⟩
    · exact ⟨le_of_lt h, fun he => absurd he (by omega)⟩
    · exact ⟨le_of_eq h1, fun _ => h2⟩
  · intro a b hpage hy hsub
    have hab : sortLE a b = true := by
      simp only [sortLE, decide_eq_true_eq]
      exact Or.inr ⟨hpage, le_of_eq hy⟩
    exact List.pair_sublist_mergeSort sortLE_trans sortLE_total hab hsub
  · rw [docSorted]
    exact List.mergeSort_perm (docHeadings lines) sortLE
  · have hagree : ∀ a ∈ docHeadings lines, ∀ b ∈ docHeadings lines,
        sortLE a b = sortLEZeroBased (id a) (id b) := by
      intro a ha b hb
      exact sortLE_eq_zeroBased a b (docHeadings_mem lines a ha).1 (docHeadings_mem lines b hb).1
    have hmap : (List.mergeSort (docHeadings lines) sortLE).map id =
        ((docHeadings lines).map id).mergeSort sortLEZeroBased :=
      List.map_mergeSort hagree
    rw [List.map_id, List.map_id] at hmap
    rw [docSorted]
    exact hmap
  · intro hne
    show outlineOf lines = _
    rw [outlineOf, if_neg hne]

/-- C5 witness: two key-equal headings (same page, same `y0`) keep their
input order in the sorted outline, and the emitted outline is their
projection. -/
theorem outline_ordering_witness :
    List.Sublist
      ([⟨"H1", "A", 1, ⟨0, 10, 5, 11⟩⟩, ⟨"H1", "B", 1, ⟨1, 10, 6, 11⟩⟩] : List Heading)
      (docSorted [⟨"Title", 24, 0, ⟨0, 0, 5, 1⟩⟩, ⟨"A", 16, 0, ⟨0, 10, 5, 11⟩⟩,
        ⟨"B", 16, 0, ⟨1, 10, 6, 11⟩⟩, ⟨"x", 12, 0, ⟨0, 20, 5, 21⟩⟩,
        ⟨"y", 12, 0, ⟨0, 30, 5, 31⟩⟩, ⟨"z", 12, 0, ⟨0, 40, 5, 41⟩⟩]) ∧
    (structureOfLines [⟨"Title", 24, 0, ⟨0, 0, 5, 1⟩⟩, ⟨"A", 16, 0, ⟨0, 10, 5, 11⟩⟩,
        ⟨"B", 16, 0, ⟨1, 10, 6, 11⟩⟩, ⟨"x", 12, 0, ⟨0, 20, 5, 21⟩⟩,
        ⟨"y", 12, 0, ⟨0, 30, 5, 31⟩⟩, ⟨"z", 12, 0, ⟨0, 40, 5, 41⟩⟩]).outline =
      (docSorted [⟨"Title", 24, 0, ⟨0, 0, 5, 1⟩⟩, ⟨"A", 16, 0, ⟨0, 10, 5, 11⟩⟩,
        ⟨"B", 16, 0, ⟨1, 10, 6, 11⟩⟩, ⟨"x", 12, 0, ⟨0, 20, 5, 21⟩⟩,
        ⟨"y", 12, 0, ⟨0, 30, 5, 31⟩⟩, ⟨"z", 12, 0, ⟨0, 40, 5, 41⟩⟩]).map
          (fun h => (⟨h.level, h.text, h.page⟩ : OutlineEntry)) := by
  have hcand : candidates [(⟨"Title", 24, 0, ⟨0, 0, 5, 1⟩⟩ : Line), ⟨"A", 16, 0, ⟨0, 10, 5, 11⟩⟩,
      ⟨"B", 16, 0, ⟨1, 10, 6, 11⟩⟩, ⟨"x", 12, 0, ⟨0, 20, 5, 21⟩⟩,
      ⟨"y", 12, 0, ⟨0, 30, 5, 31⟩⟩, ⟨"z", 12, 0, ⟨0, 40, 5, 41⟩⟩] =
      [⟨"A", 16, 0, ⟨0, 10, 5, 11⟩⟩, ⟨"B", 16, 0, ⟨1, 10, 6, 11⟩⟩] := by decide
  have hhfs : heading_font_sizes (candidates [(⟨"Title", 24, 0, ⟨0, 0, 5, 1⟩⟩ : Line),
      ⟨"A", 16, 0, ⟨0, 10, 5, 11⟩⟩, ⟨"B", 16, 0, ⟨1, 10, 6, 11⟩⟩,
      ⟨"x", 12, 0, ⟨0, 20, 5, 21⟩⟩, ⟨"y", 12, 0, ⟨0, 30, 5, 31⟩⟩,
      ⟨"z", 12, 0, ⟨0, 40, 5, 41⟩⟩]) = [16] := by
    rw [heading_font_sizes, hcand]
    have hfo : firstOccs ([⟨"A", 16, 0, ⟨0, 10, 5, 11⟩⟩,
        (⟨"B", 16, 0, ⟨1, 10, 6, 11⟩⟩ : Line)].map (fun c => c.font_size)) = [16] := by decide
    rw [hfo, List.mergeSort_singleton]
  have hdh : docHeadings [(⟨"Title", 24, 0, ⟨0, 0, 5, 1⟩⟩ : Line), ⟨"A", 16, 0, ⟨0, 10, 5, 11⟩⟩,
      ⟨"B", 16, 0, ⟨1, 10, 6, 11⟩⟩, ⟨"x", 12, 0, ⟨0, 20, 5, 21⟩⟩,
      ⟨"y", 12, 0, ⟨0, 30, 5, 31⟩⟩, ⟨"z", 12, 0, ⟨0, 40, 5, 41⟩⟩] =
      [⟨"H1", "A", 1, ⟨0, 10, 5, 11⟩⟩, ⟨"H1", "B", 1, ⟨1, 10, 6, 11⟩⟩] := by
    rw [docHeadings, hhfs, hcand]
    decide
  have h := outline_ordering [(⟨"Title", 24, 0, ⟨0, 0, 5, 1⟩⟩ : Line),
    ⟨"A", 16, 0, ⟨0, 10, 5, 11⟩⟩, ⟨"B", 16, 0, ⟨1, 10, 6, 11⟩⟩,
    ⟨"x", 12, 0, ⟨0, 20, 5, 21⟩⟩, ⟨"y", 12, 0, ⟨0, 30, 5, 31⟩⟩,
    ⟨"z", 12, 0, ⟨0, 40, 5, 41⟩⟩]
  constructor
  · refine h.2.1 ⟨"H1", "A", 1, ⟨0, 10, 5, 11⟩⟩ ⟨"H1", "B", 1, ⟨1, 10, 6, 11⟩⟩ rfl rfl ?_
    rw [hdh]
  · refine h.2.2.2.2.2 ?_
    rw [hcand]
    simp

/-- C6: a failed document open yields exactly the sentinel
`{title: "Error: <description>", outline: []}` with no partial outline; a
document with zero extractable lines yields `{title: "", outline: []}`;
and a document with no heading candidates yields the extracted title with
an empty outline, none of these being a thrown fault. -/
theorem failure_and_empty_semantics :
    (∀ e : String, extract_document_structure (.error e) = ⟨"Error: " ++ e, []⟩) ∧
    extract_document_structure (.ok []) = ⟨"", []⟩ ∧
    (∀ raw : List Line, raw ≠ [] → candidates (merge_nearby_lines raw 5) = [] →
      extract_document_structure (.ok raw) =
        ⟨(titleInfo (merge_nearby_lines raw 5)).1, []⟩) := by
  refine ⟨fun e => rfl, rfl, ?_⟩
  intro raw hne hcand
  have hm : merge_nearby_lines raw 5 ≠ [] := merge_nearby_lines_ne_nil 5 raw hne
  simp only [extract_document_structure]
  rw [if_neg hm]
  simp only [structureOfLines, outlineOf]
  rw [if_pos hcand]

/-- C6 witness: a one-line document whose only line is the title has no
candidates, and its result is the title with an empty outline. -/
theorem failure_and_empty_semantics_witness :
    ([(⟨"t", 10, 0, ⟨0, 0, 1, 1⟩⟩ : Line)] : List Line) ≠ [] ∧
    extract_document_structure (.ok [⟨"t", 10, 0, ⟨0, 0, 1, 1⟩⟩]) =
      ⟨(titleInfo (merge_nearby_lines [⟨"t", 10, 0, ⟨0, 0, 1, 1⟩⟩] 5)).1, []⟩ :=
  ⟨by simp,
    failure_and_empty_semantics.2.2 [⟨"t", 10, 0, ⟨0, 0, 1, 1⟩⟩] (by simp) (by decide)⟩

end ProcessPdfs
